import Mathlib

/-!
Shallow embedding of the core of eBCSgen (src/Core/Atomic.py, src/Core/Rule.py,
src/Core/Model.py) in Lean 4, together with theorems settling the frozen claims
about the matching engine, context completion, rule expansion, ordering,
redundancy analysis and context reduction.

Python sets are modelled as `Finset`, Python set/dict iteration as explicit
enumeration lists, Python `collections.Counter` states as total functions to
`Nat` (absent key = 0) or association lists where iteration order matters.
Classes whose source file is not under src/ (Complex, Side, Reaction, Rate)
are modelled from the spec, as marked on each such definition.
-/

namespace BCSL

/-- Atomic agent from src/Core/Atomic.py: a name and a state string.
The reserved state string is the wildcard. -/
structure AtomicAgent where
  name : String
  state : String
deriving DecidableEq

instance : Inhabited AtomicAgent := ⟨⟨"", ""⟩⟩

/-- src/Core/Atomic.py lines 23-26: `compatible` returns True iff the agents are
equal or they share a name and `self` carries the wildcard state. (Between two
atomic agents the `type(self) != type(other)` guard never fires.) -/
def AtomicAgent.compatible (a b : AtomicAgent) : Bool :=
  decide (a = b) || (decide (a.name = b.name) && decide (a.state = "_"))

/-- src/Core/Atomic.py lines 81-87: reduction replaces the state by the wildcard. -/
def AtomicAgent.reduce_context (a : AtomicAgent) : AtomicAgent :=
  ⟨a.name, "_"⟩

/-- The `other` argument of `AtomicAgent.add_context`: either a paired atomic
agent, or the sentinel `-1` ("context is empty on left", a created agent), or
the sentinel `1` ("context is empty on right", a destroyed agent). -/
inductive Partner where
  | agent (a : AtomicAgent)
  | emptyLeft
  | emptyRight
deriving DecidableEq

/-- src/Core/Atomic.py lines 40-79: fills missing context for the agent pair.
Both sides atomic and both wildcard: one pair per signature state, the same
state on both sides. Both sides atomic otherwise: the unchanged pair.
Sentinel `-1`: pairs `(None, agent)`; sentinel `1`: pairs `(agent, None)`;
in both sentinel cases the wildcard is expanded per signature state and a
concrete state is kept as the single pair. -/
def AtomicAgent.add_context (self : AtomicAgent) (other : Partner)
    (atomic_signature : String → Finset String) :
    Finset (Option AtomicAgent × Option AtomicAgent) :=
  match other with
  | .agent o =>
    if self.state = "_" ∧ o.state = "_" then
      (atomic_signature self.name).image
        (fun s => (some ⟨self.name, s⟩, some ⟨self.name, s⟩))
    else
      {(some self, some o)}
  | .emptyLeft =>
    if self.state = "_" then
      (atomic_signature self.name).image (fun s => (none, some ⟨self.name, s⟩))
    else
      {(none, some self)}
  | .emptyRight =>
    if self.state = "_" then
      (atomic_signature self.name).image (fun s => (some ⟨self.name, s⟩, none))
    else
      {(some self, none)}

/-- A concrete atomic signature used by witnesses: name `A` carries states
`p` and `u`, every other name only the wildcard. -/
def sigAW : String → Finset String :=
  fun n => if n = "A" then {"p", "u"} else {"_"}

/-- `state[c] -= 1` on a Counter viewed as a total function to `Nat`. -/
def decr {α : Type} [DecidableEq α] (s : α → Nat) (c : α) : α → Nat :=
  fun x => if x = c then s x - 1 else s x

/-- The `for match in matching_map[0]` loop of `find_all_matches`
(src/Core/Rule.py lines 217-221), with `next` standing for the recursive call
on the tail of the matching map. Mirrors the Python control flow exactly: the
decrement `state[match] -= 1` is performed on the loop's own state and is
never undone, so it persists into the following loop iterations, while the
recursive call receives a deep copy (here: a value) of the decremented state. -/
def fam_loop {α : Type} [DecidableEq α] (next : (α → Nat) → List (List α)) :
    List α → (α → Nat) → List (List α)
  | [], _ => []
  | c :: cs, s =>
    if s c > 0 then
      ((next (decr s c)).map (fun b => c :: b)) ++ fam_loop next cs (decr s c)
    else
      fam_loop next cs s

/-- src/Core/Rule.py lines 213-222: backtracking enumeration of matches.
`matching_map` is a list of candidate sets (a Python set, modelled as a list
fixing one iteration order); the state is a Counter, modelled as a total
function to `Nat`. The empty matching map returns the single empty choice. -/
def find_all_matches {α : Type} [DecidableEq α] :
    List (List α) → (α → Nat) → List (List α)
  | [], _ => [[]]
  | m0 :: rest, state => fam_loop (find_all_matches rest) m0 state

/-- The live state of the matching counterexample: count 2 for `A(p)`,
count 1 for `A(u)` (the concrete scenario of the spec). -/
def st0 : String → Nat :=
  fun x => if x = "A(p)" then 2 else if x = "A(u)" then 1 else 0

/-- The matching map of the counterexample: two left-hand slots, each with
candidate set `{A(u), A(p)}`, here enumerated with `A(u)` first (Python set
iteration order is unspecified). -/
def mm0 : List (List String) := [["A(u)", "A(p)"], ["A(u)", "A(p)"]]

/-- A one-slot, one-candidate matching scenario used as a witness input. -/
def stW : String → Nat := fun _ => 1

/-- Modelled from the spec: `Core/Complex.py` is not under src/. Spec section 3:
"Complex: an ordered multiset of agents plus one compartment tag;
equality/ordering is structural." Agents are kept in their written order;
only atomic agents are modelled (the spec leaves the structure-agent shape
external). -/
structure Complex where
  agents : List AtomicAgent
  compartment : String
deriving DecidableEq

instance : Inhabited Complex := ⟨⟨[], ""⟩⟩

/-- Sort key for the fixed total order on atomic agents. -/
def AtomicAgent.key (a : AtomicAgent) : Lex (String × String) :=
  toLex (a.name, a.state)

instance : LinearOrder AtomicAgent :=
  LinearOrder.lift' AtomicAgent.key (by
    intro a b h
    have h2 : (a.name, a.state) = (b.name, b.state) := toLex.injective h
    cases a
    cases b
    simpa using h2)

/-- Modelled from the spec: the comparison used by `SortedList` (Complex's
total order, `Core/Complex.py` not under src/). Spec section 4.4 requires
"a fixed total order (first by complex signature shape, then
lexicographically)"; we realize it as the lexicographic order on
(compartment, agent list), any fixed total order being sufficient for the
determinism claim. -/
def Complex.key (c : Complex) : Lex (String × List AtomicAgent) :=
  toLex (c.compartment, c.agents)

instance : LinearOrder Complex :=
  LinearOrder.lift' Complex.key (by
    intro a b h
    have h2 : (a.compartment, a.agents) = (b.compartment, b.agents) := toLex.injective h
    rw [Prod.mk.injEq] at h2
    cases a
    cases b
    simp only [Complex.mk.injEq]
    exact ⟨h2.2, h2.1⟩)

/-- src/Core/Model.py lines 63-74: `create_ordering` collects the set of all
compatible complexes of all rules together with the initial-state complexes
and returns `SortedList(unique_complexes)`. The collected set is modelled by
an enumeration list (one iteration order of the Python set); `SortedList` of
an iterable is its sorted sequence. -/
def create_ordering (enumeration : List Complex) : List Complex :=
  enumeration.insertionSort (· ≤ ·)

/-- Two complexes used by the ordering and reduction scenarios:
`A(p)::cell` and `A(u)::cell`. -/
def cP : Complex := ⟨[⟨"A", "p"⟩], "cell"⟩

def cU : Complex := ⟨[⟨"A", "u"⟩], "cell"⟩

/-- Python semantics of how src/Core/Rule.py line 195 tests a matching-map
entry: `[] not in self.matching_map` asks whether the empty *list* equals
(`==`) some entry; every entry of `matching_map` is a *set*
(src/Core/Rule.py line 176), and in Python a list never compares equal to a
set (`list.__eq__(set)` and `set.__eq__(list)` both return NotImplemented, so
`[] == s` falls back to identity and is False). -/
def emptyListEqPySet {α : Type} (_s : Finset α) : Bool := false

/-- src/Core/Rule.py lines 194-195: `is_applicable` returns
`[] not in self.matching_map`. -/
def is_applicable {α : Type} (matching_map : List (Finset α)) : Bool :=
  ! matching_map.any emptyListEqPySet

/-- src/Core/Rule.py lines 173-180: `create_matching_map` maps each left-hand
complex pattern to the set of state complexes compatible with it. The
Complex-level `compatible` predicate lives in `Core/Complex.py`, which is not
under src/, so it is taken as a parameter. -/
def create_matching_map (compat : Complex → Complex → Bool)
    (lhs_patterns : List Complex) (state : Finset Complex) :
    List (Finset Complex) :=
  lhs_patterns.map (fun p => state.filter (fun c => compat p c = true))

/-- src/Core/Rule.py lines 15-33, `Rule.__init__`: agents in written order,
the index `mid` of the first right-hand agent, per-position compartments,
(from, to) spans grouping agents into complexes, entangled index pairs, an
optional rate (kept opaque as its string representation — `Core/Rate.py` is
not under src/, and `Rule.__eq__` compares rates by `str`), and the
redundancy comment annotation, `(False, [])` at construction. -/
structure Rule where
  agents : List AtomicAgent
  mid : Nat
  compartments : List String
  complexes : List (Nat × Nat)
  pairs : List (Option Nat × Option Nat)
  rate : Option String
  comment : Bool × List Nat
deriving DecidableEq

instance : Inhabited Rule := ⟨⟨[], 0, [], [], [], none, (false, [])⟩⟩

/-- Modelled from the spec: `Core/Side.py` and `Core/Reaction.py` are not
under src/. Spec section 3: "Reaction: a pair of multisets of Complexes
(left side, right side) plus a rate"; equality is structural, with the rate
compared by its string representation. -/
structure Reaction where
  lhs : Multiset Complex
  rhs : Multiset Complex
  rate : Option String
deriving DecidableEq

/-- src/Core/Rule.py lines 60-70: slices `agents` into complexes along the
(from, to) spans (`agents[f:t+1]` with compartment `compartments[f]`); a
span ending before `mid` goes to the left side, the others to the right.
The sides are multisets, so the append order of the Python lists is
irrelevant. -/
def Rule.create_complexes (r : Rule) : Multiset Complex × Multiset Complex :=
  r.complexes.foldl
    (fun acc ft =>
      let c : Complex :=
        ⟨(r.agents.drop ft.1).take (ft.2 + 1 - ft.1), r.compartments.getD ft.1 ""⟩
      if ft.2 < r.mid then (c ::ₘ acc.1, acc.2) else (acc.1, c ::ₘ acc.2))
    (∅, ∅)

/-- src/Core/Rule.py lines 72-80: a Rule converted to the Reaction made of its
two sides and its rate. -/
def Rule.to_reaction (r : Rule) : Reaction :=
  ⟨r.create_complexes.1, r.create_complexes.2, r.rate⟩

/-- src/Core/Rule.py lines 143-151: a rule is meaningful iff the two sides of
its reaction differ. -/
def Rule.is_meaningful (r : Rule) : Bool :=
  ! decide (r.to_reaction.lhs = r.to_reaction.rhs)

/-- Modelled from the spec (section 4.6): Complex context reduction maps every
agent to its all-wildcard form (`Core/Complex.py` is not under src/). -/
def Complex.reduce_context (c : Complex) : Complex :=
  ⟨c.agents.map AtomicAgent.reduce_context, c.compartment⟩

/-- src/Core/Rule.py lines 132-141: a new Rule with every agent reduced and
the rate reduced. `Rate.reduce_context` lives outside src/, so the rate
transformation is the parameter `rate_reduce`. The new rule starts with a
fresh comment annotation. -/
def Rule.reduce_context (rate_reduce : String → String) (r : Rule) : Rule :=
  ⟨r.agents.map AtomicAgent.reduce_context, r.mid, r.compartments, r.complexes,
   r.pairs, r.rate.map rate_reduce, (false, [])⟩

/-- src/Core/Model.py lines 17-25: the model. The rule set is modelled as an
enumeration list, the initial `Counter` as an association list in iteration
order (keys distinct), definitions as name/value bindings. -/
structure Model where
  rules : List Rule
  init : List (Complex × Nat)
  definitions : List (String × Rat)
  params : List String
  all_rates : Bool
deriving DecidableEq

/-- Python dict/Counter assignment `d[k] = v` on an association list: the
value is overwritten if the key is present, otherwise the binding is
appended. -/
def pyDictInsert (l : List (Complex × Nat)) (k : Complex) (v : Nat) :
    List (Complex × Nat) :=
  if l.any (fun p => decide (p.1 = k)) then
    l.map (fun p => if p.1 = k then (k, v) else p)
  else
    l ++ [(k, v)]

/-- src/Core/Model.py lines 117-133: context reduction of a model, mutating
`self`. Every rule is reduced and kept only if meaningful (`new_rules` is a
Python set: values deduplicated), and the initial Counter is rebuilt by
`new_init[c.reduce_context()] = self.init[c]` — a plain dict assignment that
*overwrites* on collision of reduced keys. The function returns the state of
the model object after the call. -/
def Model.reduce_context (rate_reduce : String → String) (m : Model) : Model :=
  { m with
    rules := ((m.rules.map (Rule.reduce_context rate_reduce)).filter
      (fun r => r.is_meaningful)).dedup,
    init := m.init.foldl (fun acc p => pyDictInsert acc p.1.reduce_context p.2) [] }

/-- The initial state of the reduction counterexample: 2 units of `A(p)::cell`
and 1 unit of `A(u)::cell`, both reducing to `A(_)::cell`. -/
def m3 : Model := ⟨[], [(cP, 2), (cU, 1)], [], [], true⟩

/-- src/Core/Rule.py lines 101-112: the per-pair completion inputs of
`create_reactions`. For each entangled pair: left index None means the right
agent is completed against the sentinel `-1`; right index None means the left
agent against the sentinel `1`; otherwise both agents. (A pair (None, None)
would crash Python at `self.agents[None]`; well-formed rules exclude it, and
it is mapped to the empty completion set here.) -/
def Rule.pair_results (r : Rule) (sig : String → Finset String) :
    List (Finset (Option AtomicAgent × Option AtomicAgent)) :=
  r.pairs.map (fun lr =>
    match lr with
    | (none, some j) => (r.agents.getD j default).add_context .emptyLeft sig
    | (some i, none) => (r.agents.getD i default).add_context .emptyRight sig
    | (some i, some j) =>
        (r.agents.getD i default).add_context (.agent (r.agents.getD j default)) sig
    | (none, none) => ∅)

/-- `itertools.product` over a list of finite sets: the set of all selection
lists, one element per set, in order. -/
def listProduct {β : Type} [DecidableEq β] : List (Finset β) → Finset (List β)
  | [] => {[]}
  | s :: rest => (s ×ˢ listProduct rest).image (fun p => p.1 :: p.2)

/-- src/Core/Rule.py line 115: the new agent tuple assembled from one product
element — all first components, then all second components, with the `None`
entries filtered out. -/
def assembleAgents (combo : List (Option AtomicAgent × Option AtomicAgent)) :
    List AtomicAgent :=
  ((combo.map Prod.fst) ++ (combo.map Prod.snd)).filterMap id

/-- src/Core/Rule.py lines 116-117: the fresh Rule built from one product
element (same mid, compartments, complexes, pairs and rate), converted to a
Reaction. -/
def Rule.combo_reaction (r : Rule)
    (combo : List (Option AtomicAgent × Option AtomicAgent)) : Reaction :=
  (Rule.mk (assembleAgents combo) r.mid r.compartments r.complexes r.pairs
    r.rate (false, [])).to_reaction

/-- src/Core/Rule.py lines 92-118: `create_reactions` — context completion of
every entangled pair, Cartesian product of the per-pair completion sets,
reassembly of each product element into a fresh rule, conversion to
Reactions, collected into a set (deduplication by Reaction value). -/
def Rule.create_reactions (r : Rule) (sig : String → Finset String) : Finset Reaction :=
  (listProduct (r.pair_results sig)).image r.combo_reaction

/-- No agent of the rule carries the wildcard state. -/
abbrev Rule.no_wildcards (r : Rule) : Prop := ∀ a ∈ r.agents, a.state ≠ "_"

/-- Well-formedness of the entangled pairs (spec sections 3 and 4.3): the
left indices of the pairs enumerate the left-hand agent positions 0..mid-1
in order, the right indices enumerate the right-hand positions mid..len-1 in
order, mid is within bounds, and no pair is (None, None). -/
abbrev Rule.wf_pairs (r : Rule) : Prop :=
  r.pairs.filterMap Prod.fst = List.range r.mid
  ∧ r.pairs.filterMap Prod.snd
      = (List.range (r.agents.length - r.mid)).map (fun k => k + r.mid)
  ∧ r.mid ≤ r.agents.length
  ∧ (none, none) ∉ r.pairs

/-- The selection a well-formed fully concrete rule induces in each of its
per-pair completion sets: the pair of its own agents at the recorded
positions. -/
def Rule.pairSelect (r : Rule) (lr : Option Nat × Option Nat) :
    Option AtomicAgent × Option AtomicAgent :=
  (lr.1.map (fun i => r.agents.getD i default), lr.2.map (fun j => r.agents.getD j default))

/-- The wildcard rule `A(_) => A(_) @ k` of the spec's concrete scenario:
one entangled pair, both sides wildcard. -/
def rW : Rule :=
  ⟨[⟨"A", "_"⟩, ⟨"A", "_"⟩], 1, ["cell", "cell"], [(0, 0), (1, 1)],
   [(some 0, some 1)], some "k", (false, [])⟩

/-- The fully concrete rule `A(p) => A(p) @ k`. -/
def rC : Rule :=
  ⟨[⟨"A", "p"⟩, ⟨"A", "p"⟩], 1, ["cell", "cell"], [(0, 0), (1, 1)],
   [(some 0, some 1)], some "k", (false, [])⟩

/-- Replace the comment annotation of the rule at position `i` — the in-place
attribute assignment `rule.comment = c` on one element of the rule list. -/
def updComment : List Rule → Nat → (Bool × List Nat) → List Rule
  | [], _, _ => []
  | r :: rs, 0, c => { r with comment := c } :: rs
  | r :: rs, k + 1, c => r :: updComment rs k c

/-- One iteration of the nested loops of src/Core/Model.py lines 108-115: for
the ordered pair (i, j) of rule positions, if the positions are distinct
(`id(rule_left) != id(rule_right)`) and the left rule is compatible with the
right one, the right rule's comment becomes `(not all_rates, its ids +
[counter])`, the left rule's id list is extended in place by the same
counter (its flag untouched), and the counter is incremented. -/
def elimStep (compat : Rule → Rule → Bool) (all_rates : Bool)
    (st : List Rule × Nat) (ij : Nat × Nat) : List Rule × Nat :=
  if ij.1 ≠ ij.2 ∧ compat (st.1.getD ij.1 default) (st.1.getD ij.2 default) = true then
    let rules1 := updComment st.1 ij.2
      (!all_rates, (st.1.getD ij.2 default).comment.2 ++ [st.2])
    let rules2 := updComment rules1 ij.1
      ((rules1.getD ij.1 default).comment.1, (rules1.getD ij.1 default).comment.2 ++ [st.2])
    (rules2, st.2 + 1)
  else st

/-- The iteration space of the two nested loops over the rule set: all
ordered pairs (i, j), the first index outermost. -/
def pairList (n : Nat) : List (Nat × Nat) :=
  ((List.range n).map (fun i => (List.range n).map (fun j => (i, j)))).flatten

/-- src/Core/Model.py lines 102-115: redundancy marking, mutating the rules in
place. Iterates over all ordered pairs of distinct rules of the set (modelled
as distinct positions of the enumeration), threading the rule list and the
group-id counter that starts at 1. `Rule.compatible` delegates to
`Reaction.compatible` (src/Core/Rule.py lines 120-130), whose code is not
under src/, so the compatibility predicate is the parameter `compat`,
applied - as in the source - to the current rule values. The function
returns the state of the model object after the call. -/
def Model.eliminate_redundant (compat : Rule → Rule → Bool) (m : Model) : Model :=
  { m with
    rules := ((pairList m.rules.length).foldl (elimStep compat m.all_rates) (m.rules, 1)).1 }

/-- The comment id list of the rule at position `k`. -/
def commAt (rules : List Rule) (k : Nat) : List Nat :=
  (rules.getD k default).comment.2

/-- The rule with its comment annotation reset: the non-annotation content of
a rule. -/
def Rule.eraseComment (r : Rule) : Rule := { r with comment := (false, []) }

/-- The invariant threaded through the pair loop of `eliminate_redundant`:
`P` is the list of ordered pairs processed so far, `st` the current rule
list and counter. (A) only comments have changed; (B, C) the counter is at
least 1 and strictly bounds every assigned id; (D) two distinct positions
share an id exactly when one of their two ordered pairs was processed and
found compatible. -/
def ElimInv (compat : Rule → Rule → Bool) (m : Model)
    (P : List (Nat × Nat)) (st : List Rule × Nat) : Prop :=
  st.1.map Rule.eraseComment = m.rules.map Rule.eraseComment
  ∧ 1 ≤ st.2
  ∧ (∀ k c, c ∈ commAt st.1 k → c < st.2)
  ∧ ∀ i j, i ≠ j →
      ((∃ c, c ∈ commAt st.1 i ∧ c ∈ commAt st.1 j) ↔
        ((i, j) ∈ P
          ∧ compat (m.rules.getD i default) (m.rules.getD j default) = true)
        ∨ ((j, i) ∈ P
          ∧ compat (m.rules.getD j default) (m.rules.getD i default) = true))

/-- The model of the frame/mutation counterexample: no rules, one unit of
`A(p)::cell` in the initial state. -/
def m8 : Model := ⟨[], [(cP, 1)], [], [], true⟩

/-- A concrete two-rule model for the redundancy-symmetry witness. -/
def m9 : Model := ⟨[rW, rC], [], [], [], true⟩

/-- Theorems start here. -/
theorem C10_compatible_charact :
    (∀ a b : AtomicAgent,
      a.compatible b = true ↔ (a = b ∨ (a.name = b.name ∧ a.state = "_")))
    ∧ (∀ a : AtomicAgent, a.compatible a = true)
    ∧ ¬ (∀ a b : AtomicAgent, a.compatible b = true → b.compatible a = true)
    ∧ AtomicAgent.compatible ⟨"A", "_"⟩ ⟨"A", "p"⟩ = true
    ∧ AtomicAgent.compatible ⟨"A", "p"⟩ ⟨"A", "_"⟩ = false := by
  refine ⟨?_, ?_, ?_, by decide, by decide⟩
  · intro a b
    simp [AtomicAgent.compatible]
  · intro a
    simp [AtomicAgent.compatible]
  · intro h
    have := h ⟨"A", "_"⟩ ⟨"A", "p"⟩ (by decide)
    simp [AtomicAgent.compatible] at this

/-- C4: completion totality. For two atomic agents that are both wildcard,
`add_context` returns exactly one pair per state in the signature of the
agent's name, with the identical concrete state on both sides; if at least one
of the two agents carries a concrete state, it returns the single unchanged
pair. -/
theorem C4_completion_totality (a o : AtomicAgent) (sig : String → Finset String) :
    (a.state = "_" ∧ o.state = "_" →
      (a.add_context (.agent o) sig).card = (sig a.name).card
      ∧ a.add_context (.agent o) sig
          = (sig a.name).image (fun s => (some ⟨a.name, s⟩, some ⟨a.name, s⟩)))
    ∧ (¬ (a.state = "_" ∧ o.state = "_") →
      a.add_context (.agent o) sig = {(some a, some o)}) := by
  constructor
  · intro h
    have hset : a.add_context (.agent o) sig
        = (sig a.name).image (fun s => (some ⟨a.name, s⟩, some ⟨a.name, s⟩)) := by
      simp [AtomicAgent.add_context, h]
    refine ⟨?_, hset⟩
    rw [hset]
    apply Finset.card_image_of_injective
    intro s1 s2 hs
    simpa using hs
  · intro h
    simp [AtomicAgent.add_context, h]

theorem C4_witness :
    (AtomicAgent.add_context ⟨"A", "_"⟩ (.agent ⟨"A", "_"⟩) sigAW).card = (sigAW "A").card
    ∧ AtomicAgent.add_context ⟨"A", "p"⟩ (.agent ⟨"A", "u"⟩) sigAW
        = {(some ⟨"A", "p"⟩, some ⟨"A", "u"⟩)} :=
  ⟨((C4_completion_totality ⟨"A", "_"⟩ ⟨"A", "_"⟩ sigAW).1 ⟨rfl, rfl⟩).1,
   (C4_completion_totality ⟨"A", "p"⟩ ⟨"A", "u"⟩ sigAW).2 (by decide)⟩

/-- C1: matching completeness fails on the code. On the spec's own concrete
scenario (state `{A(p): 2, A(u): 1}`, two slots both with candidate set
`{A(u), A(p)}`), when the per-slot candidate sets are iterated with `A(u)`
first, `find_all_matches` returns only 2 combinations: the valid assignment
`(A(p), A(u))` is missing, although it is drawn slot-wise from the candidate
sets without exceeding any count. (The decrement made while processing the
sibling candidate `A(u)` of slot 0 persists into the `A(p)` iteration of the
loop, so the `A(p)` branch sees `A(u)` as exhausted.) With the opposite
iteration order the same call returns all 3 combinations, so the result also
depends on the iteration order. -/
theorem C1_matching_incomplete :
    find_all_matches mm0 st0 = [["A(u)", "A(p)"], ["A(p)", "A(p)"]]
    ∧ ["A(p)", "A(u)"] ∉ find_all_matches mm0 st0
    ∧ ("A(p)" ∈ mm0.getD 0 [] ∧ "A(u)" ∈ mm0.getD 1 []
        ∧ List.count "A(p)" ["A(p)", "A(u)"] ≤ st0 "A(p)"
        ∧ List.count "A(u)" ["A(p)", "A(u)"] ≤ st0 "A(u)")
    ∧ find_all_matches [["A(p)", "A(u)"], ["A(p)", "A(u)"]] st0
        = [["A(p)", "A(p)"], ["A(p)", "A(u)"], ["A(u)", "A(p)"]] := by
  refine ⟨by decide, by decide, ⟨by decide, by decide, by decide, by decide⟩, by decide⟩

theorem decr_le {α : Type} [DecidableEq α] (s : α → Nat) (c x : α) :
    decr s c x ≤ s x := by
  unfold decr
  split
  · exact Nat.sub_le _ _
  · exact Nat.le_refl _

theorem fam_loop_sound {α : Type} [DecidableEq α]
    (next : (α → Nat) → List (List α))
    (hnext : ∀ (s : α → Nat), ∀ combo ∈ next s, ∀ x, List.count x combo ≤ s x) :
    ∀ (m : List α) (s : α → Nat), ∀ combo ∈ fam_loop next m s,
      ∀ x, List.count x combo ≤ s x := by
  intro m
  induction m with
  | nil => intro s combo hc; simp [fam_loop] at hc
  | cons c cs ih =>
    intro s combo hc x
    rw [fam_loop] at hc
    by_cases hpos : s c > 0
    · rw [if_pos hpos, List.mem_append] at hc
      rcases hc with hc | hc
      · rcases List.mem_map.mp hc with ⟨b, hb, rfl⟩
        have hcount : List.count x b ≤ decr s c x := hnext (decr s c) b hb x
        by_cases hx : c = x
        · subst hx
          have h1 : List.count c (c :: b) = List.count c b + 1 := by
            simp [List.count_cons]
          rw [h1]
          have h2 : decr s c c = s c - 1 := by simp [decr]
          omega
        · have h1 : List.count x (c :: b) = List.count x b := by
            simp [List.count_cons, hx]
          rw [h1]
          have h2 : decr s c x = s x := by
            unfold decr
            rw [if_neg (fun h => hx h.symm)]
          omega
      · have := ih (decr s c) combo hc x
        have := decr_le s c x
        omega
    · rw [if_neg hpos] at hc
      exact ih s combo hc x

/-- C7: matching soundness. Every combination returned by `find_all_matches`
is realizable: for each returned combination, the number of times any complex
occurs in it never exceeds that complex's count in the original state, so
decrementing the original state by the chosen multiset never goes negative. -/
theorem C7_matching_soundness {α : Type} [DecidableEq α]
    (mm : List (List α)) (state : α → Nat) (combo : List α)
    (h : combo ∈ find_all_matches mm state) (x : α) :
    List.count x combo ≤ state x := by
  revert h
  induction mm generalizing state combo x with
  | nil =>
    intro h
    rw [find_all_matches] at h
    simp at h
    subst h
    simp
  | cons m0 rest ih =>
    intro h
    rw [find_all_matches] at h
    exact fam_loop_sound (find_all_matches rest)
      (fun s cb hcb y => ih s cb y hcb) m0 state combo h x

theorem C7_witness : List.count "A(p)" ["A(p)"] ≤ stW "A(p)" :=
  C7_matching_soundness [["A(p)"]] stW ["A(p)"] (by decide) "A(p)"

/-- C6: ordering determinism. The sequence returned by `create_ordering` does
not depend on the iteration order of the collected set of unique complexes:
any two enumerations of the same set (any two permutations of each other)
are sorted to the identical sequence, because the sort relation is a total
order, so the sorted sequence of a given collection is unique. Two calls on
an unchanged model collect the same set, hence produce identical sequences
(same length and same complex at every index). -/
theorem C6_ordering_deterministic (l1 l2 : List Complex) (h : l1.Perm l2) :
    create_ordering l1 = create_ordering l2 :=
  List.eq_of_perm_of_sorted
    (((List.perm_insertionSort _ l1).trans h).trans (List.perm_insertionSort _ l2).symm)
    (List.sorted_insertionSort _ l1) (List.sorted_insertionSort _ l2)

theorem C6_witness : create_ordering [cP, cU] = create_ordering [cU, cP] :=
  C6_ordering_deterministic [cP, cU] [cU, cP] (by decide)

/-- C2: refuted as stated. `is_applicable` tests `[] not in self.matching_map`,
but the entries of `matching_map` are Python sets and a list never compares
equal to a set, so the test never fires: `is_applicable` returns True for
every matching map, in particular for the matching map built against the
empty state, whose (unique) entry is the empty set — where the claim requires
False. -/
theorem C2_is_applicable_constant_true :
    (∀ compat : Complex → Complex → Bool,
      is_applicable (create_matching_map compat [cP] ∅) = true
      ∧ (∅ : Finset Complex) ∈ create_matching_map compat [cP] ∅)
    ∧ ∀ (mm : List (Finset Complex)), is_applicable mm = true := by
  constructor
  · intro compat
    constructor
    · rfl
    · simp [create_matching_map]
  · intro mm
    induction mm with
    | nil => rfl
    | cons _ rest ih =>
      simp [is_applicable, emptyListEqPySet] at ih ⊢

/-- C3: refuted as stated (and flagged by the spec itself as an unintended
overwrite, so a code bug). Reducing the initial state
`{A(p)::cell: 2, A(u)::cell: 1}` collapses both complexes to `A(_)::cell`;
the Counter rebuilt by `Model.reduce_context` stores the count of the last
colliding original (1), while the sum of the colliding originals' counts
is 3. -/
theorem C3_reduction_overwrites_counts :
    (Model.reduce_context id m3).init = [(Complex.reduce_context cP, 1)]
    ∧ Complex.reduce_context cP = Complex.reduce_context cU
    ∧ ((m3.init.filter
        (fun p => decide (p.1.reduce_context = Complex.reduce_context cP))).map
        Prod.snd).sum = 3 :=
  ⟨by decide, by decide, by decide⟩

/-- C8 counterexample: both operations change the observable state of the
model they are called on (the embedding returns the post-call state of the
mutated object): `reduce_context` reassigns the initial state (and rule set)
of the model in place, and `eliminate_redundant` rewrites the comment
annotations of the stored rules in place. -/
theorem C8_mutation_counterexample :
    Model.reduce_context id m8 ≠ m8
    ∧ (Model.eliminate_redundant (fun _ _ => true) m9).rules ≠ m9.rules :=
  ⟨by decide, by decide⟩

theorem updComment_map_erase (l : List Rule) (k : Nat) (c : Bool × List Nat) :
    (updComment l k c).map Rule.eraseComment = l.map Rule.eraseComment := by
  induction l generalizing k with
  | nil => rfl
  | cons r rs ih =>
    cases k with
    | zero => simp [updComment, Rule.eraseComment]
    | succ k2 => simp [updComment, ih]

theorem elimStep_map_erase (compat : Rule → Rule → Bool) (ar : Bool)
    (st : List Rule × Nat) (ij : Nat × Nat) :
    ((elimStep compat ar st ij).1).map Rule.eraseComment
      = st.1.map Rule.eraseComment := by
  unfold elimStep
  split
  · simp [updComment_map_erase]
  · rfl

theorem elim_foldl_frame (compat : Rule → Rule → Bool) (ar : Bool)
    (l : List (Nat × Nat)) :
    ∀ st : List Rule × Nat,
      ((l.foldl (elimStep compat ar) st).1).map Rule.eraseComment
        = st.1.map Rule.eraseComment := by
  induction l with
  | nil => intro st; rfl
  | cons ij rest ih =>
    intro st
    rw [List.foldl_cons, ih, elimStep_map_erase]

/-- C8 amended: the Model-level operations mutate the model in place
(counterexample above); what does hold is the frame property that
`eliminate_redundant` changes nothing except the rules' comment annotations:
the rules with comments erased, the initial state, the definitions, the
parameters and the all_rates flag are all preserved, for every compatibility
predicate. -/
theorem C8_only_annotations_change (compat : Rule → Rule → Bool) (m : Model) :
    (Model.eliminate_redundant compat m).rules.map Rule.eraseComment
        = m.rules.map Rule.eraseComment
    ∧ (Model.eliminate_redundant compat m).init = m.init
    ∧ (Model.eliminate_redundant compat m).definitions = m.definitions
    ∧ (Model.eliminate_redundant compat m).params = m.params
    ∧ (Model.eliminate_redundant compat m).all_rates = m.all_rates :=
  ⟨elim_foldl_frame compat m.all_rates (pairList m.rules.length) (m.rules, 1),
   rfl, rfl, rfl, rfl⟩

theorem listProduct_card {β : Type} [DecidableEq β] (L : List (Finset β)) :
    (listProduct L).card = (L.map Finset.card).prod := by
  induction L with
  | nil => rfl
  | cons s rest ih =>
    rw [listProduct, Finset.card_image_of_injective, Finset.card_product, ih,
      List.map_cons, List.prod_cons]
    intro p q h
    cases p
    cases q
    simpa using h

theorem listProduct_map_singletons {β γ : Type} [DecidableEq β] (f : γ → β) (L : List γ) :
    listProduct (L.map (fun x => ({f x} : Finset β))) = {L.map f} := by
  induction L with
  | nil => rfl
  | cons x xs ih =>
    rw [List.map_cons, listProduct, ih, Finset.singleton_product_singleton]
    simp

theorem pair_results_concrete (r : Rule) (sig : String → Finset String)
    (hwf : r.wf_pairs) (hnw : r.no_wildcards) :
    r.pair_results sig = r.pairs.map (fun lr => ({r.pairSelect lr} : Finset _)) := by
  obtain ⟨hfst, hsnd, hmid, hnn⟩ := hwf
  unfold Rule.pair_results
  apply List.map_congr_left
  intro lr hlr
  have hleft : ∀ i, lr.1 = some i → (r.agents.getD i default).state ≠ "_" := by
    intro i hi
    have hmem : i ∈ r.pairs.filterMap Prod.fst :=
      List.mem_filterMap.mpr ⟨lr, hlr, hi⟩
    rw [hfst, List.mem_range] at hmem
    have hlen : i < r.agents.length := lt_of_lt_of_le hmem hmid
    rw [List.getD_eq_getElem r.agents default hlen]
    exact hnw _ (List.getElem_mem hlen)
  have hright : ∀ j, lr.2 = some j → (r.agents.getD j default).state ≠ "_" := by
    intro j hj
    have hmem : j ∈ r.pairs.filterMap Prod.snd :=
      List.mem_filterMap.mpr ⟨lr, hlr, hj⟩
    rw [hsnd, List.mem_map] at hmem
    obtain ⟨k, hk, rfl⟩ := hmem
    rw [List.mem_range] at hk
    have hlen : k + r.mid < r.agents.length := by omega
    rw [List.getD_eq_getElem r.agents default hlen]
    exact hnw _ (List.getElem_mem hlen)
  rcases lr with ⟨l, rr⟩
  cases l with
  | none =>
    cases rr with
    | none => exact absurd hlr hnn
    | some j =>
      have hj := hright j rfl
      simp only [List.getD_eq_getElem?_getD] at hj
      simp [AtomicAgent.add_context, Rule.pairSelect, hj]
  | some i =>
    have hi := hleft i rfl
    simp only [List.getD_eq_getElem?_getD] at hi
    cases rr with
    | none => simp [AtomicAgent.add_context, Rule.pairSelect, hi]
    | some j =>
      have hj := hright j rfl
      simp only [List.getD_eq_getElem?_getD] at hj
      simp [AtomicAgent.add_context, Rule.pairSelect, hi]

theorem filterMap_id_map_optionMap {γ δ ε : Type} (g : δ → ε) (f : γ → Option δ)
    (l : List γ) :
    (l.map (fun x => (f x).map g)).filterMap id = (l.filterMap f).map g := by
  induction l with
  | nil => rfl
  | cons x xs ih =>
    cases hfx : f x <;> simp [List.filterMap_cons, hfx, ih]

theorem map_getD_range {γ : Type} [Inhabited γ] (l : List γ) (m : Nat)
    (h : m ≤ l.length) :
    (List.range m).map (fun i => l.getD i default) = l.take m := by
  apply List.ext_getElem
  · simp [h]
  · intro i h1 h2
    have hi : i < m := by simpa using h1
    have hil : i < l.length := lt_of_lt_of_le hi h
    simp [List.getD_eq_getElem?_getD, List.getElem?_eq_getElem hil]

theorem map_getD_range_add {γ : Type} [Inhabited γ] (l : List γ) (m : Nat) :
    (List.range (l.length - m)).map (fun k => l.getD (k + m) default) = l.drop m := by
  apply List.ext_getElem
  · simp
  · intro i h1 h2
    have hi : i < l.length - m := by simpa using h1
    have hil : i + m < l.length := by omega
    have hil2 : m + i < l.length := by omega
    simp [List.getD_eq_getElem?_getD, List.getElem?_eq_getElem hil, List.getElem_drop]
    congr 1
    omega

theorem assemble_pairSelect (r : Rule) (hwf : r.wf_pairs) :
    assembleAgents (r.pairs.map r.pairSelect) = r.agents := by
  obtain ⟨hfst, hsnd, hmid, _⟩ := hwf
  unfold assembleAgents
  rw [List.filterMap_append, List.map_map, List.map_map]
  have e1 : (Prod.fst ∘ r.pairSelect)
      = fun lr => (Prod.fst lr).map (fun i => r.agents.getD i default) := rfl
  have e2 : (Prod.snd ∘ r.pairSelect)
      = fun lr => (Prod.snd lr).map (fun j => r.agents.getD j default) := rfl
  rw [e1, e2, filterMap_id_map_optionMap, filterMap_id_map_optionMap, hfst, hsnd]
  rw [map_getD_range r.agents r.mid hmid, List.map_map]
  have e3 : ((fun j => r.agents.getD j default) ∘ fun k => k + r.mid)
      = fun k => r.agents.getD (k + r.mid) default := rfl
  rw [e3, map_getD_range_add r.agents r.mid, List.take_append_drop]

theorem combo_reaction_self (r : Rule) (hwf : r.wf_pairs) :
    r.combo_reaction (r.pairs.map r.pairSelect) = r.to_reaction := by
  unfold Rule.combo_reaction
  rw [assemble_pairSelect r hwf]
  rfl

/-- C5: expansion cardinality. The set of reactions returned by
`create_reactions` is the image of the Cartesian product of the per-pair
completion sets, so its size is at most the product of the per-pair
completion-set sizes, with equality exactly when no two product elements
assemble to the same Reaction value (deduplication removes only reactions
that coincide in value); and a well-formed rule with no wildcards expands to
exactly one reaction, the rule itself reinterpreted as left/right Complex
multisets (`to_reaction`). -/
theorem C5_expansion_cardinality (r : Rule) (sig : String → Finset String) :
    (r.create_reactions sig).card ≤ ((r.pair_results sig).map Finset.card).prod
    ∧ ((∀ c1 ∈ listProduct (r.pair_results sig),
          ∀ c2 ∈ listProduct (r.pair_results sig),
          r.combo_reaction c1 = r.combo_reaction c2 → c1 = c2) →
        (r.create_reactions sig).card = ((r.pair_results sig).map Finset.card).prod)
    ∧ (r.wf_pairs → r.no_wildcards → r.create_reactions sig = {r.to_reaction}) := by
  refine ⟨?_, ?_, ?_⟩
  · rw [← listProduct_card]
    exact Finset.card_image_le
  · intro hinj
    rw [← listProduct_card]
    unfold Rule.create_reactions
    apply Finset.card_image_of_injOn
    intro c1 h1 c2 h2 heq
    exact hinj c1 (Finset.mem_coe.mp h1) c2 (Finset.mem_coe.mp h2) heq
  · intro hwf hnw
    unfold Rule.create_reactions
    rw [pair_results_concrete r sig hwf hnw,
      listProduct_map_singletons r.pairSelect r.pairs, Finset.image_singleton,
      combo_reaction_self r hwf]

theorem C5_witness :
    (rW.create_reactions sigAW).card = ((rW.pair_results sigAW).map Finset.card).prod
    ∧ rC.create_reactions sigAW = {rC.to_reaction} :=
  ⟨(C5_expansion_cardinality rW sigAW).2.1 (by decide),
   (C5_expansion_cardinality rC sigAW).2.2 (by decide) (by decide)⟩

theorem updComment_length (l : List Rule) (k : Nat) (c : Bool × List Nat) :
    (updComment l k c).length = l.length := by
  induction l generalizing k with
  | nil => rfl
  | cons r rs ih =>
    cases k with
    | zero => rfl
    | succ k2 => simpa [updComment] using ih k2

theorem updComment_getD_ne (l : List Rule) (k k2 : Nat) (c : Bool × List Nat)
    (h : k ≠ k2) :
    (updComment l k c).getD k2 default = l.getD k2 default := by
  induction l generalizing k k2 with
  | nil => rfl
  | cons r rs ih =>
    cases k with
    | zero =>
      cases k2 with
      | zero => exact absurd rfl h
      | succ m2 => simp [updComment, List.getD_cons_succ]
    | succ km =>
      cases k2 with
      | zero => simp [updComment, List.getD_cons_zero]
      | succ m2 =>
        simp only [updComment, List.getD_cons_succ]
        exact ih km m2 (fun he => h (by rw [he]))

theorem updComment_getD_eq (l : List Rule) (k : Nat) (c : Bool × List Nat)
    (h : k < l.length) :
    (updComment l k c).getD k default = { l.getD k default with comment := c } := by
  induction l generalizing k with
  | nil => simp at h
  | cons r rs ih =>
    cases k with
    | zero => simp [updComment, List.getD_cons_zero]
    | succ km =>
      simp only [updComment, List.getD_cons_succ]
      exact ih km (by simpa using h)

theorem eraseComment_getD (l1 l2 : List Rule)
    (h : l1.map Rule.eraseComment = l2.map Rule.eraseComment) (k : Nat) :
    (l1.getD k default).eraseComment = (l2.getD k default).eraseComment := by
  induction l1 generalizing l2 k with
  | nil =>
    cases l2 with
    | nil => rfl
    | cons y ys => simp at h
  | cons x xs ih =>
    cases l2 with
    | nil => simp at h
    | cons y ys =>
      simp only [List.map_cons, List.cons.injEq] at h
      cases k with
      | zero => simpa [List.getD_cons_zero] using h.1
      | succ km => simpa [List.getD_cons_succ] using ih ys h.2 km

theorem length_of_map_erase {l1 l2 : List Rule}
    (h : l1.map Rule.eraseComment = l2.map Rule.eraseComment) :
    l1.length = l2.length := by
  have h2 := congrArg List.length h
  simpa using h2

theorem pairList_mem (n : Nat) (ij : Nat × Nat) :
    ij ∈ pairList n ↔ ij.1 < n ∧ ij.2 < n := by
  rcases ij with ⟨i, j⟩
  simp only [pairList, List.mem_flatten, List.mem_map, List.mem_range]
  constructor
  · rintro ⟨l, ⟨a, ha, rfl⟩, hmem⟩
    rcases List.mem_map.mp hmem with ⟨b, hb, heq⟩
    rw [List.mem_range] at hb
    have hia : a = i := congrArg Prod.fst heq
    have hjb : b = j := congrArg Prod.snd heq
    subst hia
    subst hjb
    exact ⟨ha, hb⟩
  · rintro ⟨hi, hj⟩
    exact ⟨(List.range n).map (fun j => (i, j)), ⟨i, hi, rfl⟩,
      List.mem_map.mpr ⟨j, List.mem_range.mpr hj, rfl⟩⟩

theorem elimStep_inv (compat : Rule → Rule → Bool) (m : Model) (ar : Bool)
    (P : List (Nat × Nat)) (st : List Rule × Nat) (ij : Nat × Nat)
    (hcompat : ∀ r1 r2 : Rule, compat r1 r2 = compat r1.eraseComment r2.eraseComment)
    (h1 : ij.1 < m.rules.length) (h2 : ij.2 < m.rules.length)
    (hinv : ElimInv compat m P st) :
    ElimInv compat m (P ++ [ij]) (elimStep compat ar st ij) := by
  obtain ⟨hA, hB, hC, hD⟩ := hinv
  rcases ij with ⟨i, j⟩
  simp only at h1 h2
  have hlen : st.1.length = m.rules.length := length_of_map_erase hA
  have hcompat0 : ∀ a b : Nat,
      compat (st.1.getD a default) (st.1.getD b default)
        = compat (m.rules.getD a default) (m.rules.getD b default) := by
    intro a b
    rw [hcompat, eraseComment_getD st.1 m.rules hA a, eraseComment_getD st.1 m.rules hA b,
      ← hcompat]
  rw [elimStep]
  by_cases hcond : (i, j).1 ≠ (i, j).2
      ∧ compat (st.1.getD (i, j).1 default) (st.1.getD (i, j).2 default) = true
  · rw [if_pos hcond]
    obtain ⟨hne, hcpt⟩ := hcond
    simp only at hne hcpt
    have hcpt0 : compat (m.rules.getD i default) (m.rules.getD j default) = true := by
      rw [← hcompat0]
      exact hcpt
    set ct := st.2 with hct
    set old := st.1 with hold
    set cj : Bool × List Nat := (!ar, (old.getD j default).comment.2 ++ [ct]) with hcj
    set rules1 := updComment old j cj with hrules1
    set ci : Bool × List Nat :=
      ((rules1.getD i default).comment.1, (rules1.getD i default).comment.2 ++ [ct]) with hci
    set rules2 := updComment rules1 i ci with hrules2
    have hilen : i < old.length := by rw [hlen]; exact h1
    have hjlen : j < old.length := by rw [hlen]; exact h2
    have hr1i : rules1.getD i default = old.getD i default := by
      rw [hrules1]
      exact updComment_getD_ne old j i cj (fun he => hne he.symm)
    have eq_i : commAt rules2 i = commAt old i ++ [ct] := by
      unfold commAt
      rw [hrules2, updComment_getD_eq rules1 i ci (by rw [hrules1, updComment_length]; exact hilen)]
      rw [hci, hr1i]
    have eq_j : commAt rules2 j = commAt old j ++ [ct] := by
      unfold commAt
      rw [hrules2, updComment_getD_ne rules1 i j ci hne, hrules1,
        updComment_getD_eq old j cj hjlen, hcj]
    have eq_k : ∀ k, k ≠ i → k ≠ j → commAt rules2 k = commAt old k := by
      intro k hki hkj
      unfold commAt
      rw [hrules2, updComment_getD_ne rules1 i k ci (fun he => hki he.symm), hrules1,
        updComment_getD_ne old j k cj (fun he => hkj he.symm)]
    have sub_k : ∀ k c, c ∈ commAt old k → c ∈ commAt rules2 k := by
      intro k c hc
      by_cases hki : k = i
      · subst hki
        rw [eq_i]
        exact List.mem_append_left _ hc
      by_cases hkj : k = j
      · subst hkj
        rw [eq_j]
        exact List.mem_append_left _ hc
      · rw [eq_k k hki hkj]
        exact hc
    have mem_k : ∀ k c, c ∈ commAt rules2 k →
        c ∈ commAt old k ∨ (c = ct ∧ (k = i ∨ k = j)) := by
      intro k c hc
      by_cases hki : k = i
      · subst hki
        rw [eq_i] at hc
        rcases List.mem_append.mp hc with hc | hc
        · exact Or.inl hc
        · exact Or.inr ⟨List.mem_singleton.mp hc, Or.inl rfl⟩
      by_cases hkj : k = j
      · subst hkj
        rw [eq_j] at hc
        rcases List.mem_append.mp hc with hc | hc
        · exact Or.inl hc
        · exact Or.inr ⟨List.mem_singleton.mp hc, Or.inr rfl⟩
      · rw [eq_k k hki hkj] at hc
        exact Or.inl hc
    refine ⟨?_, ?_, ?_, ?_⟩
    · show rules2.map Rule.eraseComment = m.rules.map Rule.eraseComment
      rw [hrules2, updComment_map_erase, hrules1, updComment_map_erase]
      exact hA
    · show 1 ≤ ct + 1
      omega
    · show ∀ k c, c ∈ commAt rules2 k → c < ct + 1
      intro k c hc
      rcases mem_k k c hc with hc | ⟨rfl, _⟩
      · have := hC k c hc
        omega
      · omega
    · show ∀ a b, a ≠ b →
        ((∃ c, c ∈ commAt rules2 a ∧ c ∈ commAt rules2 b) ↔
          ((a, b) ∈ P ++ [(i, j)]
            ∧ compat (m.rules.getD a default) (m.rules.getD b default) = true)
          ∨ ((b, a) ∈ P ++ [(i, j)]
            ∧ compat (m.rules.getD b default) (m.rules.getD a default) = true))
      intro a b hab
      constructor
      · rintro ⟨c, hca, hcb⟩
        rcases mem_k a c hca with hca2 | ⟨rfl, hai⟩
        · rcases mem_k b c hcb with hcb2 | ⟨rfl, hbi⟩
          · rcases (hD a b hab).mp ⟨c, hca2, hcb2⟩ with ⟨hm, hcp⟩ | ⟨hm, hcp⟩
            · exact Or.inl ⟨List.mem_append_left _ hm, hcp⟩
            · exact Or.inr ⟨List.mem_append_left _ hm, hcp⟩
          · exact absurd (hC a ct hca2) (by omega)
        · rcases mem_k b ct hcb with hcb2 | ⟨he, hbi⟩
          · exact absurd (hC b ct hcb2) (by omega)
          · rcases hai with rfl | rfl
            · rcases hbi with rfl | rfl
              · exact absurd rfl hab
              · exact Or.inl ⟨List.mem_append_right _ (List.mem_singleton.mpr rfl), hcpt0⟩
            · rcases hbi with rfl | rfl
              · exact Or.inr ⟨List.mem_append_right _ (List.mem_singleton.mpr rfl), hcpt0⟩
              · exact absurd rfl hab
      · rintro (⟨hm, hcp⟩ | ⟨hm, hcp⟩)
        · rcases List.mem_append.mp hm with hm | hm
          · rcases (hD a b hab).mpr (Or.inl ⟨hm, hcp⟩) with ⟨c, hca, hcb⟩
            exact ⟨c, sub_k a c hca, sub_k b c hcb⟩
          · have he : (a, b) = (i, j) := List.mem_singleton.mp hm
            have hea : a = i := congrArg Prod.fst he
            have heb : b = j := congrArg Prod.snd he
            subst hea
            subst heb
            refine ⟨ct, ?_, ?_⟩
            · rw [eq_i]
              exact List.mem_append_right _ (List.mem_singleton.mpr rfl)
            · rw [eq_j]
              exact List.mem_append_right _ (List.mem_singleton.mpr rfl)
        · rcases List.mem_append.mp hm with hm | hm
          · rcases (hD a b hab).mpr (Or.inr ⟨hm, hcp⟩) with ⟨c, hca, hcb⟩
            exact ⟨c, sub_k a c hca, sub_k b c hcb⟩
          · have he : (b, a) = (i, j) := List.mem_singleton.mp hm
            have hea : b = i := congrArg Prod.fst he
            have heb : a = j := congrArg Prod.snd he
            subst hea
            subst heb
            refine ⟨ct, ?_, ?_⟩
            · rw [eq_j]
              exact List.mem_append_right _ (List.mem_singleton.mpr rfl)
            · rw [eq_i]
              exact List.mem_append_right _ (List.mem_singleton.mpr rfl)
  · rw [if_neg hcond]
    refine ⟨hA, hB, hC, ?_⟩
    intro a b hab
    rw [hD a b hab]
    have hnij : ¬ (i ≠ j
        ∧ compat (m.rules.getD i default) (m.rules.getD j default) = true) := by
      intro ⟨hne, hcp⟩
      exact hcond ⟨hne, by rw [hcompat0]; exact hcp⟩
    constructor
    · rintro (⟨hm, hcp⟩ | ⟨hm, hcp⟩)
      · exact Or.inl ⟨List.mem_append_left _ hm, hcp⟩
      · exact Or.inr ⟨List.mem_append_left _ hm, hcp⟩
    · rintro (⟨hm, hcp⟩ | ⟨hm, hcp⟩)
      · rcases List.mem_append.mp hm with hm | hm
        · exact Or.inl ⟨hm, hcp⟩
        · have he : (a, b) = (i, j) := List.mem_singleton.mp hm
          have hea : a = i := congrArg Prod.fst he
          have heb : b = j := congrArg Prod.snd he
          subst hea
          subst heb
          exact absurd ⟨hab, hcp⟩ hnij
      · rcases List.mem_append.mp hm with hm | hm
        · exact Or.inr ⟨hm, hcp⟩
        · have he : (b, a) = (i, j) := List.mem_singleton.mp hm
          have hea : b = i := congrArg Prod.fst he
          have heb : a = j := congrArg Prod.snd he
          subst hea
          subst heb
          exact absurd ⟨fun hh => hab hh.symm, hcp⟩ hnij

theorem elim_foldl_inv (compat : Rule → Rule → Bool) (m : Model) (ar : Bool)
    (hcompat : ∀ r1 r2 : Rule, compat r1 r2 = compat r1.eraseComment r2.eraseComment) :
    ∀ (l : List (Nat × Nat)) (P : List (Nat × Nat)) (st : List Rule × Nat),
      (∀ ij ∈ l, ij.1 < m.rules.length ∧ ij.2 < m.rules.length) →
      ElimInv compat m P st →
      ElimInv compat m (P ++ l) (l.foldl (elimStep compat ar) st) := by
  intro l
  induction l with
  | nil =>
    intro P st _ hinv
    simpa using hinv
  | cons ij rest ih =>
    intro P st hmem hinv
    rw [List.foldl_cons]
    have hstep := elimStep_inv compat m ar P st ij hcompat
      (hmem ij (List.mem_cons_self ij rest)).1 (hmem ij (List.mem_cons_self ij rest)).2 hinv
    have hrest := ih (P ++ [ij]) (elimStep compat ar st ij)
      (fun x hx => hmem x (List.mem_cons_of_mem ij hx)) hstep
    have heq : (P ++ [ij]) ++ rest = P ++ ij :: rest := by simp
    rw [heq] at hrest
    exact hrest

theorem elim_inv_base (compat : Rule → Rule → Bool) (m : Model)
    (hinit : ∀ r ∈ m.rules, r.comment.2 = []) :
    ElimInv compat m [] (m.rules, 1) := by
  have hcomm : ∀ k, commAt m.rules k = [] := by
    intro k
    unfold commAt
    by_cases hk : k < m.rules.length
    · rw [List.getD_eq_getElem m.rules default hk]
      exact hinit _ (List.getElem_mem hk)
    · rw [List.getD_eq_default m.rules default (by omega)]
      rfl
  refine ⟨rfl, le_refl 1, ?_, ?_⟩
  · intro k c hc
    rw [hcomm k] at hc
    simp at hc
  · intro a b hab
    constructor
    · rintro ⟨c, hca, hcb⟩
      rw [hcomm a] at hca
      simp at hca
    · rintro (⟨hm, _⟩ | ⟨hm, _⟩) <;> simp at hm

/-- C9: redundancy symmetry. After `eliminate_redundant`, starting from rules
with empty annotation lists and for any comment-blind compatibility predicate
(`Rule.compatible` reads only the reaction content, never the comment), two
distinct rule positions share a redundancy-group id exactly when one of the
two ordered comparisons between them was found compatible: every detected
compatible pair receives one shared fresh id on both of its rules, so A is
flagged with B's group id iff B is flagged with A's. -/
theorem C9_redundancy_symmetry (compat : Rule → Rule → Bool) (m : Model)
    (hinit : ∀ r ∈ m.rules, r.comment.2 = [])
    (hcompat : ∀ r1 r2 : Rule, compat r1 r2 = compat r1.eraseComment r2.eraseComment)
    (i j : Nat) (hij : i ≠ j) (hi : i < m.rules.length) (hj : j < m.rules.length) :
    (∃ c, c ∈ commAt (Model.eliminate_redundant compat m).rules i
        ∧ c ∈ commAt (Model.eliminate_redundant compat m).rules j)
    ↔ (compat (m.rules.getD i default) (m.rules.getD j default) = true
        ∨ compat (m.rules.getD j default) (m.rules.getD i default) = true) := by
  have hfold := elim_foldl_inv compat m m.all_rates hcompat (pairList m.rules.length) []
    (m.rules, 1) (fun ij hm => (pairList_mem _ ij).mp hm) (elim_inv_base compat m hinit)
  have hD := hfold.2.2.2 i j hij
  have hmem1 : ((i, j) : Nat × Nat) ∈ pairList m.rules.length :=
    (pairList_mem _ _).mpr ⟨hi, hj⟩
  have hmem2 : ((j, i) : Nat × Nat) ∈ pairList m.rules.length :=
    (pairList_mem _ _).mpr ⟨hj, hi⟩
  simp only [List.nil_append] at hD
  constructor
  · intro hex
    rcases hD.mp hex with ⟨_, hcp⟩ | ⟨_, hcp⟩
    · exact Or.inl hcp
    · exact Or.inr hcp
  · rintro (hcp | hcp)
    · exact hD.mpr (Or.inl ⟨hmem1, hcp⟩)
    · exact hD.mpr (Or.inr ⟨hmem2, hcp⟩)

theorem C9_witness :
    (∃ c, c ∈ commAt (Model.eliminate_redundant (fun _ _ => true) m9).rules 0
        ∧ c ∈ commAt (Model.eliminate_redundant (fun _ _ => true) m9).rules 1)
    ↔ ((fun _ _ => true) (m9.rules.getD 0 default) (m9.rules.getD 1 default) = true
        ∨ (fun _ _ => true) (m9.rules.getD 1 default) (m9.rules.getD 0 default) = true) :=
  C9_redundancy_symmetry (fun _ _ => true) m9 (by decide) (fun _ _ => rfl)
    0 1 (by decide) (by decide) (by decide)

end BCSL
